import Mathlib

set_option linter.unnecessarySimpa false

/-!
Verification of the data loading/normalization pipeline and the filter
engine of `src/data.py` (functions `load_data` and `apply_filters`),
via a shallow embedding of the pandas operations they perform.

Modelling conventions:
* A pandas `DataFrame` is a `Table`: a list of column labels plus a list
  of positional rows (each row a list of cells).
* A cell is a `PyVal`: a string, an integer number, a date (encoded as an
  integer day ordinal, which is enough for the order comparisons the code
  performs), a categorical string (the `category` dtype wraps the same
  string), or null (NaN/NaT/None).
* `pd.read_csv` / `pd.read_excel` are external parsers; `load_data` is
  modelled as taking the raw parsed frame as input, together with the
  external value parsers `pd.to_datetime` (`parseDate`, `none` = NaT) and
  `pd.to_numeric` (`parseNum`, `none` = NaN), over which all theorems are
  universally quantified.
* The categorical-compaction loop divides `nunique()` by `len(df[col])`
  with no zero-length guard, so a frame that reaches it with zero rows
  (every date unparseable, or a data-less upload) and a listed
  object-dtype string column raises `ZeroDivisionError`; `load_data`
  models this as `Except.error LoadError.zeroDivision`.
* `Series.str.contains(pat, case=False, na=False)` calls `re.search` with
  `re.IGNORECASE`; it is modelled by a Brzozowski-derivative regex engine
  over the metacharacter fragment the analysed claims exercise
  (literals, `.`, `|`, `*`, `+`, `?`, grouping); patterns outside the
  fragment are mapped to a never-matching result, a modelling boundary no
  theorem below depends on.
-/

/-- A pandas cell value: string, int number, date (day ordinal),
categorical-dtype string, or null (NaN/NaT). -/
inductive PyVal where
  | vstr (s : String)
  | vnum (n : Int)
  | vdate (d : Int)
  | vcat (s : String)
  | none
deriving DecidableEq

/-- A criterion value in the `filters` dict of `apply_filters`: Python
`None`, a string, or a sequence (list or tuple) of values. -/
inductive Crit where
  | cnone
  | cstr (s : String)
  | cseq (vs : List PyVal)
deriving DecidableEq

/-- A DataFrame: column labels plus positional rows. -/
structure Table where
  cols : List String
  rows : List (List PyVal)
deriving DecidableEq

/-- Index of the first occurrence of column `c` among the labels
(pandas column lookup). -/
def colIdx : List String → String → Option Nat
  | [], _ => Option.none
  | c' :: cs, c => if c' = c then Option.some 0 else (colIdx cs c).map (· + 1)

/-- Boolean membership test `column in df.columns`. -/
def hasCol (cols : List String) (c : String) : Bool :=
  (colIdx cols c).isSome

/-- Cell of a row at a named column (callers only use it when the column
exists; out-of-range positions read as null). -/
def cellAt (cols : List String) (r : List PyVal) (c : String) : PyVal :=
  match colIdx cols c with
  | Option.some i => r.getD i PyVal.none
  | Option.none => PyVal.none

/-- Model of `astype(str)` on a cell: a float NaN prints as the string
"nan"; a categorical prints its underlying string. -/
def valueToStr : PyVal → String
  | PyVal.vstr s => s
  | PyVal.vnum n => toString n
  | PyVal.vdate d => toString d
  | PyVal.vcat s => s
  | PyVal.none => "nan"

/-- Equality used by `Series.isin`: pandas compares underlying values, so
a categorical equals the equal plain string, and NaN matches NaN. -/
def pyEq : PyVal → PyVal → Bool
  | PyVal.vstr a, PyVal.vstr b => a = b
  | PyVal.vstr a, PyVal.vcat b => a = b
  | PyVal.vcat a, PyVal.vstr b => a = b
  | PyVal.vcat a, PyVal.vcat b => a = b
  | PyVal.vnum a, PyVal.vnum b => a = b
  | PyVal.vdate a, PyVal.vdate b => a = b
  | PyVal.none, PyVal.none => true
  | _, _ => false

/-- Order comparison of datetime values (`DATE >= start`, `DATE <= end`):
comparisons against NaT and non-date values are False in pandas. -/
def pyDateLe : PyVal → PyVal → Bool
  | PyVal.vdate a, PyVal.vdate b => a ≤ b
  | _, _ => false

/-- Python `criterion[0]` for a sequence criterion. -/
def crit0 : Crit → PyVal
  | Crit.cseq vs => vs.getD 0 PyVal.none
  | _ => PyVal.none

/-- Python `criterion[1]` for a sequence criterion. -/
def crit1 : Crit → PyVal
  | Crit.cseq vs => vs.getD 1 PyVal.none
  | _ => PyVal.none

/-- The skip test of `apply_filters`:
`criterion is None or (isinstance(criterion, (str, list, tuple)) and not criterion)`. -/
def isEmptyCrit : Crit → Bool
  | Crit.cnone => true
  | Crit.cstr s => s = ""
  | Crit.cseq vs => vs.isEmpty

/-- Model of `astype(category)` on one cell: strings become categorical values,
nulls stay null. -/
def toCat : PyVal → PyVal
  | PyVal.vstr s => PyVal.vcat s
  | v => v

/-- Forget the categorical representation hint (decode `category` dtype
back to plain strings). -/
def decat : PyVal → PyVal
  | PyVal.vcat s => PyVal.vstr s
  | v => v

/-- Forget categorical representation across a whole table. -/
def decatTable (t : Table) : Table :=
  { cols := t.cols, rows := t.rows.map (fun r => r.map decat) }

/-! ### Regular expressions (model of `re.search` with `re.IGNORECASE`) -/

/-- Regular expression syntax tree. -/
inductive Re where
  | emp
  | eps
  | ch (c : Char)
  | dot
  | alt (a b : Re)
  | cat (a b : Re)
  | star (a : Re)
deriving DecidableEq

/-- Case-insensitive character match (model of `re.IGNORECASE`). -/
def cmatch (a b : Char) : Bool :=
  a.toLower = b.toLower

/-- Does the regex accept the empty string? -/
def nullable : Re → Bool
  | Re.emp => false
  | Re.eps => true
  | Re.ch _ => false
  | Re.dot => false
  | Re.alt a b => nullable a || nullable b
  | Re.cat a b => nullable a && nullable b
  | Re.star _ => true

/-- Brzozowski derivative with case-insensitive character matching. -/
def rderiv : Re → Char → Re
  | Re.emp, _ => Re.emp
  | Re.eps, _ => Re.emp
  | Re.ch c, x => if cmatch c x then Re.eps else Re.emp
  | Re.dot, _ => Re.eps
  | Re.alt a b, x => Re.alt (rderiv a x) (rderiv b x)
  | Re.cat a b, x =>
    if nullable a then Re.alt (Re.cat (rderiv a x) b) (rderiv b x)
    else Re.cat (rderiv a x) b
  | Re.star a, x => Re.cat (rderiv a x) (Re.star a)

/-- Does the regex match some prefix of the character list? -/
def msp (r : Re) : List Char → Bool
  | [] => nullable r
  | c :: cs => nullable r || msp (rderiv r c) cs

/-- Does the regex match some substring (`re.search` semantics: try every
start position)? -/
def rsearch (r : Re) : List Char → Bool
  | [] => nullable r
  | c :: cs => msp r (c :: cs) || rsearch r cs

/-- Regex metacharacters of Python `re` (braces written by code point). -/
def isMeta (c : Char) : Bool :=
  c = '.' || c = '^' || c = '$' || c = '*' || c = '+' || c = '?' ||
  c = '[' || c = ']' || c = '(' || c = ')' || c = '|' || c = '\\' ||
  c = Char.ofNat 123 || c = Char.ofNat 125

/-- Consume postfix repetition operators after an atom. -/
def parsePostF : Re → List Char → Re × List Char
  | r, [] => (r, [])
  | r, c :: rest =>
    if c = '*' then parsePostF (Re.star r) rest
    else if c = '+' then parsePostF (Re.cat r (Re.star r)) rest
    else if c = '?' then parsePostF (Re.alt r Re.eps) rest
    else (r, c :: rest)

mutual

/-- Parse an alternation (the whole pattern or a group body). -/
def parseAltF : Nat → List Char → Option (Re × List Char)
  | 0, _ => Option.none
  | Nat.succ f, s =>
    match parseCatF f s with
    | Option.some (r, rest) => parseAltTailF f r rest
    | Option.none => Option.none

/-- Parse the remaining `|`-separated branches. -/
def parseAltTailF : Nat → Re → List Char → Option (Re × List Char)
  | 0, _, _ => Option.none
  | Nat.succ f, r, s =>
    match s with
    | [] => Option.some (r, [])
    | c :: rest =>
      if c = '|' then
        match parseCatF f rest with
        | Option.some (r2, rest2) => parseAltTailF f (Re.alt r r2) rest2
        | Option.none => Option.none
      else Option.some (r, c :: rest)

/-- Parse a concatenation of postfixed atoms. -/
def parseCatF : Nat → List Char → Option (Re × List Char)
  | 0, _ => Option.none
  | Nat.succ f, s =>
    match s with
    | [] => Option.some (Re.eps, [])
    | c :: _ =>
      if c = '|' ∨ c = ')' then Option.some (Re.eps, s)
      else
        match parseAtomF f s with
        | Option.some (r, rest) =>
          match parseCatF f (parsePostF r rest).2 with
          | Option.some (r2, rest2) => Option.some (Re.cat (parsePostF r rest).1 r2, rest2)
          | Option.none => Option.none
        | Option.none => Option.none

/-- Parse one atom: `.`, a group, or a literal character. -/
def parseAtomF : Nat → List Char → Option (Re × List Char)
  | 0, _ => Option.none
  | Nat.succ f, s =>
    match s with
    | [] => Option.none
    | c :: rest =>
      if c = '.' then Option.some (Re.dot, rest)
      else if c = '(' then
        match parseAltF f rest with
        | Option.some (r, c2 :: rest2) =>
          if c2 = ')' then Option.some (r, rest2) else Option.none
        | _ => Option.none
      else if isMeta c then Option.none
      else Option.some (Re.ch c, rest)

end

/-- Parse a whole pattern (enough fuel for any input in the supported
fragment; leftover input or unsupported constructs yield `none`). -/
def parseReL (l : List Char) : Option Re :=
  match parseAltF (2 * l.length + 4) l with
  | Option.some (r, []) => Option.some r
  | _ => Option.none

/-- Model of `Series.str.contains(pat, case=False, na=False)` on one
already-stringified value: `re.search` with `re.IGNORECASE`. -/
def regexSearchCI (pat hay : String) : Bool :=
  match parseReL pat.data with
  | Option.some r => rsearch r hay.data
  | Option.none => false

/-- Case-insensitive prefix test on character lists. -/
def isPrefixCI : List Char → List Char → Bool
  | [], _ => true
  | _ :: _, [] => false
  | a :: as, b :: bs => cmatch a b && isPrefixCI as bs

/-- Case-insensitive substring containment on character lists. -/
def isInfixCI (l : List Char) : List Char → Bool
  | [] => l.isEmpty
  | b :: bs => isPrefixCI l (b :: bs) || isInfixCI l bs

/-! ### Filter engine (`apply_filters`, src/data.py lines 119-149) -/

/-- The fixed AWP keyword vocabulary (`AWP_KEYWORDS`, src/data.py). -/
def AWP_KEYWORDS : List String :=
  ["TELESCOPIC BOOMLIFT", "ARTICULATING BOOMLIFT", "SCISSOR LIFT",
   "AERIAL WORK PLATFORM", "AWP", "PERSONNEL LIFT", "BOOM LIFT", "JLG",
   "GENIE", "SKYJACK", "HAULOTTE", "DINGLI", "MAN LIFT", "PLATFORM LIFT",
   "FORKLIFT", "TELEHANDLER", "STACKER", "PALLET TRUCK", "CRANE", "HOIST"]

/-- The pattern built in the `AWP_MACHINES` branch:
`"|".join([k.lower() for k in criterion])` (iterating a string criterion
iterates its characters, as in Python). -/
def awpPattern : Crit → String
  | Crit.cnone => ""
  | Crit.cstr s => String.intercalate "|" (s.data.map (fun c => String.mk [c.toLower]))
  | Crit.cseq vs => String.intercalate "|" (vs.map (fun v => (valueToStr v).toLower))

/-- One iteration of the `for column, criterion in filters.items()` loop,
reduced to the predicate it filters rows with (`none` when the iteration
leaves the frame unchanged). The branch structure mirrors the source:
skip empty criteria; skip unknown non-special keys; then the
`DATE_RANGE`, `AWP_MACHINES`, string-contains and `isin` branches.
`pd.to_datetime` applied to the already-datelike bounds is the identity
and is left implicit. -/
def predOf (cols : List String) (k : String) (c : Crit) : Option (List PyVal → Bool) :=
  if isEmptyCrit c then Option.none
  else if hasCol cols k = false ∧ k ≠ "DATE_RANGE" ∧ k ≠ "AWP_MACHINES" then Option.none
  else if k = "DATE_RANGE" then
    if hasCol cols "DATE" = true ∧ crit0 c ≠ PyVal.none ∧ crit1 c ≠ PyVal.none then
      Option.some (fun r => pyDateLe (crit0 c) (cellAt cols r "DATE") &&
                            pyDateLe (cellAt cols r "DATE") (crit1 c))
    else Option.none
  else if k = "AWP_MACHINES" then
    if hasCol cols "PRODUCT DESCRIPTION" = true then
      Option.some (fun r => regexSearchCI (awpPattern c)
        (valueToStr (cellAt cols r "PRODUCT DESCRIPTION")))
    else Option.none
  else
    match c with
    | Crit.cstr s => Option.some (fun r => regexSearchCI s (valueToStr (cellAt cols r k)))
    | Crit.cseq vs =>
      if hasCol cols k = true then
        Option.some (fun r => vs.any (fun v => pyEq (cellAt cols r k) v))
      else Option.none
    | Crit.cnone => Option.none

/-- One loop iteration applied to the running frame. -/
def applyStep (t : Table) (kc : String × Crit) : Table :=
  match predOf t.cols kc.1 kc.2 with
  | Option.none => t
  | Option.some p => { t with rows := t.rows.filter p }

/-- Model of `apply_filters(df, filters)`: iterate the criteria in order over a
copy of the frame (the Python dict iterates in insertion order, modelled
as an association list). -/
def apply_filters (t : Table) (fs : List (String × Crit)) : Table :=
  fs.foldl applyStep t

/-! ### Loader (`load_data`, src/data.py lines 61-116) -/

/-- Failure modes of `load_data`. `unboundLocal` models the
`UnboundLocalError` raised at `df.columns` when no parser branch assigned
`df`; `zeroDivision` models the `ZeroDivisionError` raised by
`df[col].nunique() / len(df[col])` in the categorical-compaction loop
when the frame reaching it has zero rows; `unsupportedFormat` is the
dedicated error the specification names, which the code never raises. -/
inductive LoadError where
  | unsupportedFormat
  | unboundLocal
  | zeroDivision
deriving DecidableEq

/-- Python `str.strip`: drop leading and trailing whitespace. -/
def pyStrip (s : String) : String :=
  String.mk (((s.data.dropWhile (fun c => c.isWhitespace)).reverse.dropWhile
    (fun c => c.isWhitespace)).reverse)

/-- Model of `df.columns.str.strip()`. -/
def stripCols (t : Table) : Table :=
  { t with cols := t.cols.map (fun s => pyStrip s) }

/-- The `col_mapping` dict of `load_data` (every key maps to itself). -/
def colMapping : List (String × String) :=
  [("INDIAN IMPORTER NAME", "INDIAN IMPORTER NAME"),
   ("FOREIGN EXPORTER NAME", "FOREIGN EXPORTER NAME"),
   ("FOREIGN COUNTRY", "FOREIGN COUNTRY"),
   ("FOREIGN EXPORTER CITY", "FOREIGN EXPORTER CITY"),
   ("INDIAN PORT", "INDIAN PORT"),
   ("CHA NAME", "CHA NAME"),
   ("MODE", "MODE"),
   ("CITY", "CITY"),
   ("PRODUCT DESCRIPTION", "PRODUCT DESCRIPTION"),
   ("DATE", "DATE"),
   ("QUANTITY", "QUANTITY"),
   ("UNIT", "UNIT"),
   ("TOTAL ASS VALUE INR", "TOTAL ASS VALUE INR"),
   ("DUTY IN INR", "DUTY IN INR"),
   ("TOTAL ASS VALUE IN FOREIGN CURRENCY", "TOTAL ASS VALUE IN FOREIGN CURRENCY"),
   ("FOREIGN CURRENCY", "FOREIGN CURRENCY"),
   ("FOREIGN PORT", "FOREIGN PORT")]

/-- Model of `df.rename(columns=...)` with the allow-list mapping: a label found
among the keys is replaced by its image, others pass through. -/
def renameStep (t : Table) : Table :=
  { t with cols := t.cols.map (fun c => ((colMapping.lookup c).getD c)) }

/-- One cell of `pd.to_datetime(df[DATE], errors=coerce, dayfirst=True)`:
parsed values become dates, failures become NaT (null). -/
def dateParsedCell (parseDate : PyVal → Option Int) (r : List PyVal) (i : Nat) : PyVal :=
  match parseDate (r.getD i PyVal.none) with
  | Option.some d => PyVal.vdate d
  | Option.none => PyVal.none

/-- The row test of `df.dropna(subset=[DATE])`: keep rows whose cell at
position `i` is not null. -/
def notNullAt (i : Nat) (r : List PyVal) : Bool :=
  match r.getD i PyVal.none with
  | PyVal.none => false
  | _ => true

/-- Date coercion:
`df[DATE] = pd.to_datetime(df[DATE], errors=coerce, dayfirst=True)`
followed by `df.dropna(subset=[DATE])`. `parseDate` is the external
day-first parser; `none` models NaT. -/
def dateStep (parseDate : PyVal → Option Int) (t : Table) : Table :=
  match colIdx t.cols "DATE" with
  | Option.none => t
  | Option.some i =>
    let rows1 := t.rows.map (fun r => r.set i (dateParsedCell parseDate r i))
    { t with rows := rows1.filter (notNullAt i) }

/-- The `numeric_cols` list of `load_data`. -/
def numericCols : List String :=
  ["QUANTITY", "TOTAL ASS VALUE INR", "UNIT INR",
   "TOTAL ASS VALUE IN FOREIGN CURRENCY", "UNIT RATE IN FOREIGN CURRENCY",
   "DUTY IN INR"]

/-- One cell of
`pd.to_numeric(df[col], errors=coerce)` then `fillna(0)`:
unparseable values (and nulls) become 0, never null. -/
def numCell (parseNum : PyVal → Option Int) (v : PyVal) : PyVal :=
  match parseNum v with
  | Option.some n => PyVal.vnum n
  | Option.none => PyVal.vnum 0

/-- Model of a column assignment `df[col] = f(df[col])` on the column named `c` (no-op if absent). -/
def updateCol (t : Table) (c : String) (f : PyVal → PyVal) : Table :=
  match colIdx t.cols c with
  | Option.none => t
  | Option.some i => { t with rows := t.rows.map (fun r => r.set i (f (r.getD i PyVal.none))) }

/-- The numeric-coercion loop over a given column list. -/
def numericStepAux (parseNum : PyVal → Option Int) (L : List String) (t : Table) : Table :=
  L.foldl (fun acc c => updateCol acc c (numCell parseNum)) t

/-- The numeric-coercion loop of `load_data`. -/
def numericStep (parseNum : PyVal → Option Int) (t : Table) : Table :=
  numericStepAux parseNum numericCols t

/-- The `string_cols_to_categorize` list of `load_data`. -/
def stringColsToCategorize : List String :=
  ["INDIAN IMPORTER NAME", "FOREIGN EXPORTER NAME", "INDIAN PORT",
   "FOREIGN COUNTRY", "CHA NAME", "FOREIGN EXPORTER CITY", "MODE", "CITY",
   "FOREIGN PORT", "UNIT", "FOREIGN CURRENCY"]

/-- Model of the dtype-object test `df[col].dtype == object` for a
listed string column. The listed columns are untouched by the date and
numeric coercions, so at compaction time their dtype is still the dtype
`pd.read_csv`/`pd.read_excel` inferred, which row dropping never changes;
it is therefore computed from `raw`, the frame before row dropping. A
column of a zero-row frame has dtype object (pandas default with no data
to infer from); a nonempty column is object when it holds at least one
Python-str element (all-numeric or all-null columns get a numeric dtype). -/
def objectDtype (raw : Table) (c : String) : Bool :=
  match colIdx raw.cols c with
  | Option.none => false
  | Option.some i =>
    raw.rows.isEmpty ||
      raw.rows.any (fun r => match r.getD i PyVal.none with
                             | PyVal.vstr _ => true
                             | _ => false)

/-- Model of `df[col].nunique()`: number of distinct non-null values at position `i`. -/
def nuniqueCol (t : Table) (i : Nat) : Nat :=
  (((t.rows.map (fun r => r.getD i PyVal.none)).filter (fun v => v ≠ PyVal.none)).dedup).length

/-- One iteration of the categorical-compaction loop:
`if col in df.columns and df[col].dtype == object:` guards the division
`df[col].nunique() / len(df[col])`, which raises `ZeroDivisionError` when
the frame has zero rows; otherwise `nunique/len < 0.5` is the rational
inequality `2 * nunique < len` and a true test converts the column to the
category dtype. -/
def catIterE (raw : Table) (t : Table) (c : String) : Except LoadError Table :=
  match colIdx t.cols c with
  | Option.none => Except.ok t
  | Option.some i =>
    if objectDtype raw c then
      if t.rows.length = 0 then Except.error LoadError.zeroDivision
      else if 2 * nuniqueCol t i < t.rows.length then
        Except.ok { t with rows := t.rows.map (fun r => r.set i (toCat (r.getD i PyVal.none))) }
      else Except.ok t
    else Except.ok t

/-- The categorical-compaction loop of `load_data` over a column list,
stopping at the first raised error. -/
def catStepE (raw : Table) : List String → Table → Except LoadError Table
  | [], t => Except.ok t
  | c :: L, t =>
    match catIterE raw t c with
    | Except.ok t2 => catStepE raw L t2
    | Except.error e => Except.error e

/-- Python `str.endswith`: suffix test on the filename. -/
def pyEndsWith (s suffix : String) : Bool :=
  suffix.data.isSuffixOf s.data

/-- Model of `load_data(uploaded_file)`: format dispatch on the filename
extension, then column strip, allow-list rename, date coercion, numeric
coercion and categorical compaction. `df` is the frame the external
parser (`pd.read_csv` for `.csv`/`.txt`, `pd.read_excel` for `.xlsx`)
produced; for any other extension no branch assigns `df`, so the
function fails with `UnboundLocalError`. -/
def load_data (parseDate parseNum : PyVal → Option Int) (name : String) (df : Table) :
    Except LoadError Table :=
  if pyEndsWith name ".csv" || pyEndsWith name ".txt" || pyEndsWith name ".xlsx" then
    catStepE (renameStep (stripCols df)) stringColsToCategorize
      (numericStep parseNum (dateStep parseDate (renameStep (stripCols df))))
  else
    Except.error LoadError.unboundLocal

/-- Modelled from the spec: the same loading pipeline with step 5
(categorical compaction) omitted entirely, as §4.1 of the specification
says a reimplementation may do without changing observable behavior. -/
def loadNoCompact (parseDate parseNum : PyVal → Option Int) (name : String) (df : Table) :
    Except LoadError Table :=
  if pyEndsWith name ".csv" || pyEndsWith name ".txt" || pyEndsWith name ".xlsx" then
    Except.ok (numericStep parseNum (dateStep parseDate (renameStep (stripCols df))))
  else
    Except.error LoadError.unboundLocal

/-! ### List helper lemmas -/

theorem getD_set_self {α : Type} (l : List α) (i : Nat) (v d : α) (h : i < l.length) :
    (l.set i v).getD i d = v := by
  induction l generalizing i with
  | nil => simp at h
  | cons a l ih =>
    cases i with
    | zero => rfl
    | succ i => simpa using ih i (by simpa using h)

theorem getD_set_ne {α : Type} (l : List α) (i j : Nat) (v d : α) (h : i ≠ j) :
    (l.set i v).getD j d = l.getD j d := by
  induction l generalizing i j with
  | nil => simp
  | cons a l ih =>
    cases i with
    | zero =>
      cases j with
      | zero => exact absurd rfl h
      | succ j => simp [List.getD]
    | succ i =>
      cases j with
      | zero => simp [List.getD]
      | succ j => simpa [List.getD] using ih i j (fun hh => h (by simp [hh]))

theorem set_getD_self {α : Type} (l : List α) (i : Nat) (d : α) :
    l.set i (l.getD i d) = l := by
  induction l generalizing i with
  | nil => simp
  | cons a l ih =>
    cases i with
    | zero => rfl
    | succ i => simpa [List.getD] using ih i

theorem getD_map {α β : Type} (l : List α) (f : α → β) (i : Nat) (d : α) :
    (l.map f).getD i (f d) = f (l.getD i d) := by
  induction l generalizing i with
  | nil => simp [List.getD]
  | cons a l ih =>
    cases i with
    | zero => rfl
    | succ i => simpa [List.getD] using ih i

theorem map_set {α β : Type} (l : List α) (f : α → β) (i : Nat) (v : α) :
    (l.set i v).map f = (l.map f).set i (f v) := by
  induction l generalizing i with
  | nil => simp
  | cons a l ih =>
    cases i with
    | zero => rfl
    | succ i => simp [ih i]

theorem filter_map_comm {α β : Type} (l : List α) (f : α → β) (p : β → Bool) :
    (l.map f).filter p = (l.filter (fun a => p (f a))).map f := by
  induction l with
  | nil => rfl
  | cons a l ih =>
    by_cases h : p (f a) <;> simp [List.filter_cons, h, ih]

theorem filter_swap {α : Type} (l : List α) (p q : α → Bool) :
    (l.filter p).filter q = (l.filter q).filter p := by
  induction l with
  | nil => rfl
  | cons a l ih =>
    by_cases hp : p a <;> by_cases hq : q a <;>
      simp [List.filter_cons, hp, hq, ih]

theorem length_filter_countP {α : Type} (l : List α) (p : α → Bool) :
    (l.filter p).length = l.countP p := by
  induction l with
  | nil => rfl
  | cons a l ih =>
    by_cases h : p a <;> simp [List.filter_cons, List.countP_cons, h, ih]

theorem countP_len {α : Type} (l : List α) (p : α → Bool) :
    l.countP p + l.countP (fun a => !(p a)) = l.length := by
  induction l with
  | nil => rfl
  | cons a l ih =>
    by_cases h : p a <;> simp [List.countP_cons, h] <;> omega

/-! ### Regex engine lemmas -/

/-- The regex denoting one literal character list, as the parser produces
it for a metacharacter-free pattern. -/
def litCat : List Char → Re
  | [] => Re.eps
  | c :: cs => Re.cat (Re.ch c) (litCat cs)

theorem msp_eps (s : List Char) : msp Re.eps s = true := by
  cases s <;> simp [msp, nullable]

theorem msp_alt (s : List Char) (a b : Re) :
    msp (Re.alt a b) s = (msp a s || msp b s) := by
  induction s generalizing a b with
  | nil => simp [msp, nullable]
  | cons c cs ih =>
    simp [msp, nullable, rderiv, ih]
    cases nullable a <;> cases nullable b <;>
      cases msp (rderiv a c) cs <;> cases msp (rderiv b c) cs <;> simp

theorem msp_cat_emp (s : List Char) (r : Re) : msp (Re.cat Re.emp r) s = false := by
  induction s with
  | nil => simp [msp, nullable]
  | cons c cs ih => simp [msp, nullable, rderiv, ih]

theorem msp_cat_eps (s : List Char) (r : Re) : msp (Re.cat Re.eps r) s = msp r s := by
  induction s generalizing r with
  | nil => simp [msp, nullable]
  | cons c cs ih =>
    simp [msp, nullable, rderiv, msp_alt, msp_cat_emp]

theorem msp_litCat (l : List Char) : ∀ s, msp (litCat l) s = isPrefixCI l s := by
  induction l with
  | nil => intro s; simp [litCat, msp_eps, isPrefixCI]
  | cons a as ih =>
    intro s
    cases s with
    | nil => simp [litCat, msp, nullable, isPrefixCI]
    | cons b bs =>
      by_cases h : cmatch a b
      · simp [litCat, msp, nullable, rderiv, h, msp_cat_eps, ih, isPrefixCI]
      · simp [litCat, msp, nullable, rderiv, h, msp_cat_emp, isPrefixCI]

theorem nullable_litCat (l : List Char) : nullable (litCat l) = l.isEmpty := by
  cases l <;> simp [litCat, nullable]

theorem rsearch_litCat (l : List Char) : ∀ s, rsearch (litCat l) s = isInfixCI l s := by
  intro s
  induction s with
  | nil => simp [rsearch, nullable_litCat, isInfixCI]
  | cons c cs ih => simp [rsearch, msp_litCat, ih, isInfixCI]

theorem parsePostF_lit (r : Re) (rest : List Char)
    (h : ∀ d ∈ rest, isMeta d = false) : parsePostF r rest = (r, rest) := by
  cases rest with
  | nil => rfl
  | cons d ds =>
    have hd := h d (by simp)
    have h1 : d ≠ '*' := by intro he; rw [he] at hd; simp [isMeta] at hd
    have h2 : d ≠ '+' := by intro he; rw [he] at hd; simp [isMeta] at hd
    have h3 : d ≠ '?' := by intro he; rw [he] at hd; simp [isMeta] at hd
    simp [parsePostF, h1, h2, h3]

theorem parseCatF_lit (l : List Char) :
    ∀ f, (∀ c ∈ l, isMeta c = false) → l.length + 1 ≤ f →
      parseCatF f l = Option.some (litCat l, []) := by
  induction l with
  | nil =>
    intro f _ hf
    cases f with
    | zero => omega
    | succ g => simp [parseCatF, litCat]
  | cons c rest ih =>
    intro f hmeta hf
    cases f with
    | zero => simp at hf
    | succ g =>
      have hc := hmeta c (by simp)
      have hc1 : c ≠ '|' := by intro he; rw [he] at hc; simp [isMeta] at hc
      have hc2 : c ≠ ')' := by intro he; rw [he] at hc; simp [isMeta] at hc
      have hc3 : c ≠ '.' := by intro he; rw [he] at hc; simp [isMeta] at hc
      have hc4 : c ≠ '(' := by intro he; rw [he] at hc; simp [isMeta] at hc
      have hfr : rest.length + 1 ≤ g := by simp at hf; omega
      obtain ⟨g2, rfl⟩ : ∃ g2, g = Nat.succ g2 := ⟨g - 1, by omega⟩
      have hatom : parseAtomF (Nat.succ g2) (c :: rest) = Option.some (Re.ch c, rest) := by
        rw [parseAtomF]
        simp [hc3, hc4, hc]
      have hpost : parsePostF (Re.ch c) rest = (Re.ch c, rest) :=
        parsePostF_lit _ _ (fun d hd => hmeta d (by simp [hd]))
      have hrest : parseCatF (Nat.succ g2) rest = Option.some (litCat rest, []) :=
        ih _ (fun d hd => hmeta d (by simp [hd])) hfr
      rw [parseCatF]
      have hcc : ¬(c = '|' ∨ c = ')') := by simp [hc1, hc2]
      simp only [hcc, if_false, hatom, hpost, hrest, litCat]

theorem parseReL_lit (l : List Char) (hmeta : ∀ c ∈ l, isMeta c = false) :
    parseReL l = Option.some (litCat l) := by
  have hcat : parseCatF (2 * l.length + 3) l = Option.some (litCat l, []) :=
    parseCatF_lit l _ hmeta (by omega)
  have htail : parseAltTailF (2 * l.length + 3) (litCat l) [] =
      Option.some (litCat l, []) := by
    rw [show 2 * l.length + 3 = Nat.succ (2 * l.length + 2) from rfl]
    rw [parseAltTailF]
  have halt : parseAltF (2 * l.length + 4) l = Option.some (litCat l, []) := by
    rw [show 2 * l.length + 4 = Nat.succ (2 * l.length + 3) from rfl]
    rw [parseAltF]
    simp only [hcat, htail]
  simp [parseReL, halt]

theorem regexSearchCI_lit (p h : String) (hmeta : ∀ c ∈ p.data, isMeta c = false) :
    regexSearchCI p h = isInfixCI p.data h.data := by
  simp [regexSearchCI, parseReL_lit p.data hmeta, rsearch_litCat]

theorem isPrefixCI_iff (l : List Char) :
    ∀ m, isPrefixCI l m = true ↔ l.map Char.toLower <+: m.map Char.toLower := by
  induction l with
  | nil => intro m; simp [isPrefixCI]
  | cons a as ih =>
    intro m
    cases m with
    | nil => simp [isPrefixCI, List.prefix_nil]
    | cons b bs =>
      simp [isPrefixCI, List.cons_prefix_cons, cmatch, ih, and_comm]

theorem isInfixCI_iff (l : List Char) :
    ∀ m, isInfixCI l m = true ↔ l.map Char.toLower <:+: m.map Char.toLower := by
  intro m
  induction m with
  | nil =>
    simp [isInfixCI, List.infix_nil, List.isEmpty_iff, List.map_eq_nil_iff]
  | cons b bs ih =>
    simp [isInfixCI, List.infix_cons_iff, isPrefixCI_iff, ih]

/-! ### Filter engine lemmas -/

theorem applyStep_cols (t : Table) (kc : String × Crit) :
    (applyStep t kc).cols = t.cols := by
  unfold applyStep
  cases predOf t.cols kc.1 kc.2 <;> rfl

theorem apply_filters_cols (fs : List (String × Crit)) :
    ∀ t : Table, (apply_filters t fs).cols = t.cols := by
  induction fs with
  | nil => intro t; rfl
  | cons kc fs ih =>
    intro t
    show (apply_filters (applyStep t kc) fs).cols = t.cols
    rw [ih, applyStep_cols]

theorem applyStep_rows_sublist (t : Table) (kc : String × Crit) :
    (applyStep t kc).rows.Sublist t.rows := by
  unfold applyStep
  cases predOf t.cols kc.1 kc.2 with
  | none => exact List.Sublist.refl _
  | some p => exact List.filter_sublist _

theorem apply_filters_rows_sublist (fs : List (String × Crit)) :
    ∀ t : Table, (apply_filters t fs).rows.Sublist t.rows := by
  induction fs with
  | nil => intro t; exact List.Sublist.refl _
  | cons kc fs ih =>
    intro t
    exact (ih (applyStep t kc)).trans (applyStep_rows_sublist t kc)

theorem applyStep_empty (t : Table) (k : String) (c : Crit)
    (h : isEmptyCrit c = true) : applyStep t (k, c) = t := by
  unfold applyStep predOf
  simp [h]

theorem applyStep_of_none (t : Table) (kc : String × Crit)
    (h : predOf t.cols kc.1 kc.2 = Option.none) : applyStep t kc = t := by
  unfold applyStep
  rw [h]

theorem applyStep_of_some (t : Table) (kc : String × Crit) (p : List PyVal → Bool)
    (h : predOf t.cols kc.1 kc.2 = Option.some p) :
    applyStep t kc = { t with rows := t.rows.filter p } := by
  unfold applyStep
  rw [h]

theorem applyStep_comm (t : Table) (a b : String × Crit) :
    applyStep (applyStep t a) b = applyStep (applyStep t b) a := by
  cases hA : predOf t.cols a.1 a.2 with
  | none =>
    cases hB : predOf t.cols b.1 b.2 with
    | none =>
      rw [applyStep_of_none t a hA, applyStep_of_none t b hB, applyStep_of_none t a hA]
    | some q =>
      rw [applyStep_of_none t a hA, applyStep_of_some t b q hB]
      exact (applyStep_of_none { cols := t.cols, rows := List.filter q t.rows } a hA).symm
  | some p =>
    cases hB : predOf t.cols b.1 b.2 with
    | none =>
      rw [applyStep_of_none t b hB, applyStep_of_some t a p hA]
      exact applyStep_of_none { cols := t.cols, rows := List.filter p t.rows } b hB
    | some q =>
      rw [applyStep_of_some t a p hA, applyStep_of_some t b q hB,
          applyStep_of_some { cols := t.cols, rows := List.filter p t.rows } b q hB,
          applyStep_of_some { cols := t.cols, rows := List.filter q t.rows } a p hA]
      congr 1
      exact filter_swap t.rows p q

/-! ### Column index lemmas -/

theorem colIdx_lt (cols : List String) (c : String) :
    ∀ i, colIdx cols c = Option.some i → i < cols.length := by
  induction cols with
  | nil => intro i h; simp [colIdx] at h
  | cons c' cs ih =>
    intro i h
    by_cases hc : c' = c
    · simp [colIdx, hc] at h
      simp [List.length_cons]
      omega
    · simp [colIdx, hc] at h
      obtain ⟨j, hj, rfl⟩ := h
      have := ih j hj
      simp [List.length_cons]
      omega

theorem colIdx_getD (cols : List String) (c d : String) :
    ∀ i, colIdx cols c = Option.some i → cols.getD i d = c := by
  induction cols with
  | nil => intro i h; simp [colIdx] at h
  | cons c' cs ih =>
    intro i h
    by_cases hc : c' = c
    · simp [colIdx, hc] at h
      simp [← h, List.getD, hc]
    · simp [colIdx, hc] at h
      obtain ⟨j, hj, rfl⟩ := h
      simpa [List.getD] using ih j hj

theorem colIdx_ne (cols : List String) (a b : String) (i j : Nat)
    (ha : colIdx cols a = Option.some i) (hb : colIdx cols b = Option.some j)
    (hab : a ≠ b) : i ≠ j := by
  intro he
  apply hab
  rw [← colIdx_getD cols a "" i ha, ← colIdx_getD cols b "" j hb, he]

theorem hasCol_some (cols : List String) (c : String) (h : hasCol cols c = true) :
    ∃ i, colIdx cols c = Option.some i := by
  unfold hasCol at h
  cases hc : colIdx cols c with
  | none => rw [hc] at h; simp at h
  | some i => exact ⟨i, rfl⟩

/-! ### Loader lemmas -/

theorem lookup_getD_id (ps : List (String × String)) (hid : ∀ p ∈ ps, p.1 = p.2) :
    ∀ c, ((ps.lookup c).getD c) = c := by
  induction ps with
  | nil => intro c; rfl
  | cons p ps ih =>
    intro c
    rcases p with ⟨k, v⟩
    have hkv : k = v := hid (k, v) (by simp)
    by_cases h : c = k
    · subst h
      simp [List.lookup]
      exact hkv.symm
    · have hb : (c == k) = false := by simp [h]
      simp [List.lookup, hb]
      exact ih (fun q hq => hid q (by simp [hq])) c

theorem renameStep_id (t : Table) : renameStep t = t := by
  unfold renameStep
  have : ∀ c, ((colMapping.lookup c).getD c) = c :=
    lookup_getD_id colMapping (by decide)
  cases t with
  | mk cols rows =>
    simp [this]

theorem stripCols_rows (t : Table) : (stripCols t).rows = t.rows := rfl

theorem dateStep_cols (pd : PyVal → Option Int) (t : Table) :
    (dateStep pd t).cols = t.cols := by
  unfold dateStep
  cases colIdx t.cols "DATE" <;> rfl

theorem updateCol_cols (t : Table) (c : String) (f : PyVal → PyVal) :
    (updateCol t c f).cols = t.cols := by
  unfold updateCol
  cases colIdx t.cols c <;> rfl

theorem updateCol_length (t : Table) (c : String) (f : PyVal → PyVal) :
    (updateCol t c f).rows.length = t.rows.length := by
  unfold updateCol
  cases colIdx t.cols c <;> simp

theorem numericStepAux_cols (pn : PyVal → Option Int) (L : List String) :
    ∀ t : Table, (numericStepAux pn L t).cols = t.cols := by
  induction L with
  | nil => intro t; rfl
  | cons c L ih =>
    intro t
    show (numericStepAux pn L (updateCol t c (numCell pn))).cols = t.cols
    rw [ih, updateCol_cols]

theorem numericStepAux_length (pn : PyVal → Option Int) (L : List String) :
    ∀ t : Table, (numericStepAux pn L t).rows.length = t.rows.length := by
  induction L with
  | nil => intro t; rfl
  | cons c L ih =>
    intro t
    show (numericStepAux pn L (updateCol t c (numCell pn))).rows.length = t.rows.length
    rw [ih, updateCol_length]

/-! ### Row-level characterizations of the coercion steps -/

/-- The row transformation `df[c] = f(df[c])` performs. -/
def rowUpd (cols : List String) (c : String) (f : PyVal → PyVal) : List PyVal → List PyVal :=
  match colIdx cols c with
  | Option.none => fun r => r
  | Option.some i => fun r => r.set i (f (r.getD i PyVal.none))

theorem updateCol_eq_map (t : Table) (c : String) (f : PyVal → PyVal) :
    updateCol t c f = { t with rows := t.rows.map (rowUpd t.cols c f) } := by
  unfold updateCol rowUpd
  cases hq : colIdx t.cols c <;> simp

/-- The per-row effect of the whole numeric-coercion loop. -/
def rowNumFoldl (pn : PyVal → Option Int) (cols : List String) (L : List String)
    (r : List PyVal) : List PyVal :=
  L.foldl (fun r' c => rowUpd cols c (numCell pn) r') r

theorem numericStepAux_eq_map (pn : PyVal → Option Int) (L : List String) :
    ∀ t : Table, numericStepAux pn L t =
      { cols := t.cols, rows := t.rows.map (rowNumFoldl pn t.cols L) } := by
  induction L with
  | nil =>
    intro t
    show t = _
    cases t with
    | mk cols rows =>
      have h : List.map (rowNumFoldl pn cols []) rows = rows := by
        simp only [show rowNumFoldl pn cols [] = id from rfl, List.map_id]
      rw [h]
  | cons c L ih =>
    intro t
    show numericStepAux pn L (updateCol t c (numCell pn)) = _
    rw [ih, updateCol_eq_map]
    simp [List.map_map, rowNumFoldl, Function.comp]

theorem rowUpd_length (cols : List String) (c : String) (f : PyVal → PyVal)
    (r : List PyVal) : (rowUpd cols c f r).length = r.length := by
  unfold rowUpd
  cases colIdx cols c <;> simp

theorem rowNumFoldl_length (pn : PyVal → Option Int) (cols : List String) (L : List String) :
    ∀ r, (rowNumFoldl pn cols L r).length = r.length := by
  induction L with
  | nil => intro r; rfl
  | cons c L ih =>
    intro r
    show (rowNumFoldl pn cols L (rowUpd cols c (numCell pn) r)).length = r.length
    rw [ih, rowUpd_length]

theorem rowUpd_getD_ne (cols : List String) (c : String) (f : PyVal → PyVal)
    (r : List PyVal) (i : Nat) (d : PyVal)
    (h : colIdx cols c ≠ Option.some i) :
    (rowUpd cols c f r).getD i d = r.getD i d := by
  unfold rowUpd
  cases hq : colIdx cols c with
  | none => rfl
  | some j =>
    have hj : j ≠ i := by intro he; rw [he] at hq; exact h hq
    exact getD_set_ne r j i _ d hj

theorem rowNumFoldl_getD_notmem (pn : PyVal → Option Int) (cols : List String)
    (L : List String) :
    ∀ r i d, (∀ c' ∈ L, colIdx cols c' ≠ Option.some i) →
      (rowNumFoldl pn cols L r).getD i d = r.getD i d := by
  induction L with
  | nil => intro r i d _; rfl
  | cons c L ih =>
    intro r i d h
    show (rowNumFoldl pn cols L (rowUpd cols c (numCell pn) r)).getD i d = r.getD i d
    rw [ih _ i d (fun c' hc' => h c' (by simp [hc'])),
        rowUpd_getD_ne cols c _ r i d (h c (by simp))]

theorem rowNumFoldl_getD_mem (pn : PyVal → Option Int) (cols : List String)
    (L : List String) :
    ∀ r i c, L.Nodup → c ∈ L → colIdx cols c = Option.some i → i < r.length →
      (rowNumFoldl pn cols L r).getD i PyVal.none = numCell pn (r.getD i PyVal.none) := by
  induction L with
  | nil => intro r i c _ hc; simp at hc
  | cons c1 L ih =>
    intro r i c hnd hc hci hlen
    show (rowNumFoldl pn cols L (rowUpd cols c1 (numCell pn) r)).getD i PyVal.none = _
    by_cases he : c1 = c
    · subst he
      have hnotin : ∀ c' ∈ L, colIdx cols c' ≠ Option.some i := by
        intro c' hc' hq
        have h1 : cols.getD i "" = c' := colIdx_getD cols c' "" i hq
        have h2 : cols.getD i "" = c1 := colIdx_getD cols c1 "" i hci
        have : c' = c1 := by rw [← h1, h2]
        subst this
        exact (List.nodup_cons.mp hnd).1 hc'
      rw [rowNumFoldl_getD_notmem pn cols L _ i PyVal.none hnotin]
      unfold rowUpd
      rw [hci]
      exact getD_set_self r i _ PyVal.none hlen
    · have hcL : c ∈ L := by
        cases hc with
        | head => exact absurd rfl he
        | tail _ h => exact h
      have hlen1 : i < (rowUpd cols c1 (numCell pn) r).length := by
        rw [rowUpd_length]; exact hlen
      rw [ih _ i c (List.nodup_cons.mp hnd).2 hcL hci hlen1]
      congr 1
      apply rowUpd_getD_ne
      intro hq
      have h1 : cols.getD i "" = c1 := colIdx_getD cols c1 "" i hq
      have h2 : cols.getD i "" = c := colIdx_getD cols c "" i hci
      exact he (by rw [← h1, h2])

theorem countP_ext {α : Type} (l : List α) (p q : α → Bool)
    (h : ∀ a ∈ l, p a = q a) : l.countP p = l.countP q := by
  induction l with
  | nil => rfl
  | cons a l ih =>
    rw [List.countP_cons, List.countP_cons, h a (by simp),
        ih (fun b hb => h b (by simp [hb]))]

/-! ### Date-coercion lemmas -/

theorem dateStep_eq (pd : PyVal → Option Int) (t : Table) (i : Nat)
    (hi : colIdx t.cols "DATE" = Option.some i) :
    dateStep pd t = { cols := t.cols, rows := (t.rows.map (fun r => r.set i (dateParsedCell pd r i))).filter (notNullAt i) } := by
  unfold dateStep
  rw [hi]

theorem dateStep_count_aux (pd : PyVal → Option Int) (i : Nat) :
    ∀ rows : List (List PyVal), (∀ r ∈ rows, i < r.length) →
      ((rows.map (fun r => r.set i (dateParsedCell pd r i))).filter (notNullAt i)).length
      + rows.countP (fun r => (pd (r.getD i PyVal.none)).isNone) = rows.length := by
  intro rows
  induction rows with
  | nil => intro _; simp
  | cons r rows ih =>
    intro h
    have hr : i < r.length := h r (by simp)
    have hrest := ih (fun r1 hr1 => h r1 (by simp [hr1]))
    cases hpd : pd (r.getD i PyVal.none) with
    | some d =>
      have hcell : notNullAt i (r.set i (dateParsedCell pd r i)) = true := by
        unfold notNullAt dateParsedCell
        rw [getD_set_self r i _ PyVal.none hr, hpd]
      rw [List.map_cons, List.filter_cons, hcell, if_pos rfl, List.countP_cons, hpd]
      rw [if_neg (by simp)]
      simp only [List.length_cons]
      omega
    | none =>
      have hcell : notNullAt i (r.set i (dateParsedCell pd r i)) = false := by
        unfold notNullAt dateParsedCell
        rw [getD_set_self r i _ PyVal.none hr, hpd]
      rw [List.map_cons, List.filter_cons, hcell, if_neg (by simp), List.countP_cons, hpd]
      rw [if_pos (by simp)]
      simp only [List.length_cons]
      omega

theorem dateStep_length (pd : PyVal → Option Int) (t : Table) (i : Nat)
    (hi : colIdx t.cols "DATE" = Option.some i)
    (hwf : ∀ r ∈ t.rows, r.length = t.cols.length) :
    (dateStep pd t).rows.length +
      t.rows.countP (fun r => (pd (r.getD i PyVal.none)).isNone) = t.rows.length := by
  have hlt : i < t.cols.length := colIdx_lt t.cols "DATE" i hi
  rw [dateStep_eq pd t i hi]
  exact dateStep_count_aux pd i t.rows (fun r hr => by rw [hwf r hr]; exact hlt)

theorem dateStep_cell (pd : PyVal → Option Int) (t : Table) (i : Nat)
    (hi : colIdx t.cols "DATE" = Option.some i)
    (hwf : ∀ r ∈ t.rows, r.length = t.cols.length) :
    ∀ r ∈ (dateStep pd t).rows, ∃ d : Int, r.getD i PyVal.none = PyVal.vdate d := by
  intro r hr
  rw [dateStep_eq pd t i hi] at hr
  have hr2 : r ∈ (t.rows.map (fun r => r.set i (dateParsedCell pd r i))).filter (notNullAt i) := hr
  rw [List.mem_filter] at hr2
  obtain ⟨hmem, hpred⟩ := hr2
  rw [List.mem_map] at hmem
  obtain ⟨r0, hr0, rfl⟩ := hmem
  have hlen : i < r0.length := by
    rw [hwf r0 hr0]; exact colIdx_lt t.cols "DATE" i hi
  cases hpd : pd (r0.getD i PyVal.none) with
  | none =>
    exfalso
    have hc : notNullAt i (r0.set i (dateParsedCell pd r0 i)) = false := by
      unfold notNullAt dateParsedCell
      rw [getD_set_self r0 i _ PyVal.none hlen, hpd]
    rw [hc] at hpred
    simp at hpred
  | some d =>
    refine ⟨d, ?_⟩
    show (r0.set i (dateParsedCell pd r0 i)).getD i PyVal.none = PyVal.vdate d
    rw [getD_set_self r0 i _ PyVal.none hlen]
    unfold dateParsedCell
    rw [hpd]

theorem dateStep_wf (pd : PyVal → Option Int) (t : Table)
    (hwf : ∀ r ∈ t.rows, r.length = t.cols.length) :
    ∀ r ∈ (dateStep pd t).rows, r.length = (dateStep pd t).cols.length := by
  rw [dateStep_cols]
  unfold dateStep
  cases hi : colIdx t.cols "DATE" with
  | none => exact hwf
  | some i =>
    intro r hr
    rw [List.mem_filter] at hr
    obtain ⟨hmem, _⟩ := hr
    rw [List.mem_map] at hmem
    obtain ⟨r0, hr0, rfl⟩ := hmem
    rw [List.length_set]
    exact hwf r0 hr0

theorem dateStep_length_le (pd : PyVal → Option Int) (t : Table) :
    (dateStep pd t).rows.length ≤ t.rows.length := by
  unfold dateStep
  cases colIdx t.cols "DATE" with
  | none => exact Nat.le.refl
  | some i =>
    calc (List.filter _ (t.rows.map _)).length
        ≤ (t.rows.map _).length := List.length_filter_le _ _
      _ = t.rows.length := List.length_map _ _

/-! ### Categorical compaction is representation-only -/

theorem decat_valueToStr (v : PyVal) : valueToStr (decat v) = valueToStr v := by
  cases v <;> rfl

theorem decat_pyEq (a b : PyVal) : pyEq (decat a) b = pyEq a b := by
  cases a <;> cases b <;> rfl

theorem decat_pyDateLe_left (a b : PyVal) : pyDateLe (decat a) b = pyDateLe a b := by
  cases a <;> cases b <;> rfl

theorem decat_pyDateLe_right (a b : PyVal) : pyDateLe a (decat b) = pyDateLe a b := by
  cases a <;> cases b <;> rfl

theorem decat_toCat (v : PyVal) : decat (toCat v) = decat v := by
  cases v <;> rfl

theorem cellAt_map_decat (cols : List String) (r : List PyVal) (c : String) :
    cellAt cols (r.map decat) c = decat (cellAt cols r c) := by
  unfold cellAt
  cases hq : colIdx cols c with
  | none => rfl
  | some i => exact getD_map r decat i PyVal.none

theorem predOf_decat_invariant (cols : List String) (k : String) (c : Crit)
    (p : List PyVal → Bool) (h : predOf cols k c = Option.some p) :
    ∀ r, p (r.map decat) = p r := by
  unfold predOf at h
  split at h
  · exact Option.noConfusion h
  · split at h
    · exact Option.noConfusion h
    · split at h
      · split at h
        · rw [Option.some.injEq] at h
          subst h
          intro r
          simp only [cellAt_map_decat, decat_pyDateLe_left, decat_pyDateLe_right]
        · exact Option.noConfusion h
      · split at h
        · split at h
          · rw [Option.some.injEq] at h
            subst h
            intro r
            simp only [cellAt_map_decat, decat_valueToStr]
          · exact Option.noConfusion h
        · split at h
          · rw [Option.some.injEq] at h
            subst h
            intro r
            simp only [cellAt_map_decat, decat_valueToStr]
          · split at h
            · rw [Option.some.injEq] at h
              subst h
              intro r
              simp only [cellAt_map_decat, decat_pyEq]
            · exact Option.noConfusion h
          · exact Option.noConfusion h

theorem applyStep_decat (t : Table) (kc : String × Crit) :
    applyStep (decatTable t) kc = decatTable (applyStep t kc) := by
  cases hq : predOf t.cols kc.1 kc.2 with
  | none =>
    rw [applyStep_of_none t kc hq]
    exact applyStep_of_none (decatTable t) kc hq
  | some p =>
    rw [applyStep_of_some t kc p hq,
        applyStep_of_some (decatTable t) kc p hq]
    unfold decatTable
    congr 1
    rw [filter_map_comm]
    congr 1
    apply List.filter_congr
    intro a _
    exact predOf_decat_invariant t.cols kc.1 kc.2 p hq a

theorem apply_filters_decat (fs : List (String × Crit)) :
    ∀ t : Table, apply_filters (decatTable t) fs = decatTable (apply_filters t fs) := by
  induction fs with
  | nil => intro t; rfl
  | cons kc fs ih =>
    intro t
    show apply_filters (applyStep (decatTable t) kc) fs = _
    rw [applyStep_decat, ih]
    rfl

/-- The raw parsed frame contains no categorical cells (the `category`
dtype only ever arises from the compaction step itself). -/
def NoCatTable (t : Table) : Prop :=
  ∀ r ∈ t.rows, ∀ v ∈ r, decat v = v

theorem map_id_of {α : Type} (l : List α) (f : α → α) (h : ∀ a ∈ l, f a = a) :
    l.map f = l := by
  induction l with
  | nil => rfl
  | cons a l ih =>
    simp [h a (by simp), ih (fun b hb => h b (by simp [hb]))]

theorem decatTable_eq_of_noCat (t : Table) (h : NoCatTable t) : decatTable t = t := by
  unfold decatTable
  cases t with
  | mk cols rows =>
    congr 1
    apply map_id_of
    intro r hr
    apply map_id_of
    intro v hv
    exact h r hr v hv

theorem decatRow_catCell (r : List PyVal) (j : Nat) :
    (r.set j (toCat (r.getD j PyVal.none))).map decat = r.map decat := by
  rw [map_set, decat_toCat]
  have h1 : decat (r.getD j PyVal.none) = (r.map decat).getD j PyVal.none :=
    (getD_map r decat j PyVal.none).symm
  rw [h1, set_getD_self]

/-! ### Compaction-loop lemmas -/

theorem catIterE_eq_none (raw t : Table) (c : String)
    (hq : colIdx t.cols c = Option.none) : catIterE raw t c = Except.ok t := by
  unfold catIterE
  rw [hq]

theorem catIterE_eq_notobj (raw t : Table) (c : String) (j : Nat)
    (hq : colIdx t.cols c = Option.some j) (ho : objectDtype raw c = false) :
    catIterE raw t c = Except.ok t := by
  unfold catIterE
  simp only [hq]
  simp [ho]

theorem catIterE_eq_zero (raw t : Table) (c : String) (j : Nat)
    (hq : colIdx t.cols c = Option.some j) (ho : objectDtype raw c = true)
    (hz : t.rows.length = 0) :
    catIterE raw t c = Except.error LoadError.zeroDivision := by
  unfold catIterE
  simp only [hq]
  simp [ho, hz]

theorem catIterE_eq_compact (raw t : Table) (c : String) (j : Nat)
    (hq : colIdx t.cols c = Option.some j) (ho : objectDtype raw c = true)
    (hz : ¬t.rows.length = 0) (hcd : 2 * nuniqueCol t j < t.rows.length) :
    catIterE raw t c =
      Except.ok { t with rows := t.rows.map (fun r => r.set j (toCat (r.getD j PyVal.none))) } := by
  unfold catIterE
  simp only [hq]
  simp [ho, hz, hcd]

theorem catIterE_eq_nocompact (raw t : Table) (c : String) (j : Nat)
    (hq : colIdx t.cols c = Option.some j) (ho : objectDtype raw c = true)
    (hz : ¬t.rows.length = 0) (hcd : ¬2 * nuniqueCol t j < t.rows.length) :
    catIterE raw t c = Except.ok t := by
  unfold catIterE
  simp only [hq]
  simp [ho, hz, hcd]

theorem catIterE_ok (raw t : Table) (c : String) (t2 : Table)
    (h : catIterE raw t c = Except.ok t2) :
    t2.cols = t.cols ∧ t2.rows.length = t.rows.length ∧
    (t2 = t ∨ ∃ j, colIdx t.cols c = Option.some j ∧
      t2.rows = t.rows.map (fun r => r.set j (toCat (r.getD j PyVal.none)))) := by
  cases hq : colIdx t.cols c with
  | none =>
    rw [catIterE_eq_none raw t c hq] at h
    rw [Except.ok.injEq] at h
    subst h
    exact ⟨rfl, rfl, Or.inl rfl⟩
  | some j =>
    cases ho : objectDtype raw c with
    | false =>
      rw [catIterE_eq_notobj raw t c j hq ho] at h
      rw [Except.ok.injEq] at h
      subst h
      exact ⟨rfl, rfl, Or.inl rfl⟩
    | true =>
      by_cases hz : t.rows.length = 0
      · rw [catIterE_eq_zero raw t c j hq ho hz] at h
        exact Except.noConfusion h
      · by_cases hcd : 2 * nuniqueCol t j < t.rows.length
        · rw [catIterE_eq_compact raw t c j hq ho hz hcd] at h
          rw [Except.ok.injEq] at h
          subst h
          exact ⟨rfl, by simp, Or.inr ⟨j, rfl, rfl⟩⟩
        · rw [catIterE_eq_nocompact raw t c j hq ho hz hcd] at h
          rw [Except.ok.injEq] at h
          subst h
          exact ⟨rfl, rfl, Or.inl rfl⟩

theorem catStepE_ok (raw : Table) (L : List String) :
    ∀ t t2 : Table, catStepE raw L t = Except.ok t2 →
      t2.cols = t.cols ∧ t2.rows.length = t.rows.length ∧
      decatTable t2 = decatTable t ∧
      ∀ i : Nat, (∀ c' ∈ L, colIdx t.cols c' ≠ Option.some i) →
        ∀ r ∈ t2.rows, ∃ r0 ∈ t.rows,
          r.getD i PyVal.none = r0.getD i PyVal.none ∧ r.length = r0.length := by
  induction L with
  | nil =>
    intro t t2 h
    rw [show catStepE raw [] t = Except.ok t from rfl, Except.ok.injEq] at h
    subst h
    exact ⟨rfl, rfl, rfl, fun i _ r hr => ⟨r, hr, rfl, rfl⟩⟩
  | cons c L ih =>
    intro t t2 h
    show t2.cols = t.cols ∧ _
    cases hit : catIterE raw t c with
    | error e =>
      unfold catStepE at h
      simp only [hit] at h
      exact Except.noConfusion h
    | ok t1 =>
      unfold catStepE at h
      simp only [hit] at h
      obtain ⟨hc1, hl1, hd1, hp1⟩ := ih t1 t2 h
      obtain ⟨hc0, hl0, hch⟩ := catIterE_ok raw t c t1 hit
      have hd0 : decatTable t1 = decatTable t := by
        rcases hch with rfl | ⟨j, hq, hrows⟩
        · rfl
        · unfold decatTable
          rw [hc0, hrows, List.map_map]
          congr 1
          apply List.map_congr_left
          intro r _
          exact decatRow_catCell r j
      refine ⟨hc1.trans hc0, hl1.trans hl0, hd1.trans hd0, ?_⟩
      intro i hno r hr
      have hnoL : ∀ c' ∈ L, colIdx t1.cols c' ≠ Option.some i := by
        intro c' hc'
        rw [hc0]
        exact hno c' (by simp [hc'])
      obtain ⟨r1, hr1, he1, hl1b⟩ := hp1 i hnoL r hr
      rcases hch with rfl | ⟨j, hq, hrows⟩
      · exact ⟨r1, hr1, he1, hl1b⟩
      · rw [hrows] at hr1
        rw [List.mem_map] at hr1
        obtain ⟨r0, hr0, rfl⟩ := hr1
        have hji : j ≠ i := by
          intro he
          exact hno c (by simp) (he ▸ hq)
        refine ⟨r0, hr0, ?_, ?_⟩
        · rw [he1, getD_set_ne r0 j i _ PyVal.none hji]
        · rw [hl1b]
          simp

theorem mem_set_or {α : Type} (l : List α) :
    ∀ (i : Nat) (v : α), ∀ w ∈ l.set i v, w ∈ l ∨ w = v := by
  induction l with
  | nil => intro i v w hw; simp at hw
  | cons a l ih =>
    intro i v w hw
    cases i with
    | zero =>
      cases hw with
      | head => exact Or.inr rfl
      | tail _ h2 => exact Or.inl (List.mem_cons_of_mem a h2)
    | succ i =>
      cases hw with
      | head => exact Or.inl (List.mem_cons_self a l)
      | tail _ h2 =>
        rcases ih i v w h2 with h3 | h3
        · exact Or.inl (List.mem_cons_of_mem a h3)
        · exact Or.inr h3

theorem noCat_dateStep (pd : PyVal → Option Int) (t : Table) (h : NoCatTable t) :
    NoCatTable (dateStep pd t) := by
  intro r hr v hv
  unfold dateStep at hr
  cases hq : colIdx t.cols "DATE" with
  | none =>
    rw [hq] at hr
    exact h r hr v hv
  | some i =>
    rw [hq] at hr
    have hr2 : r ∈ (t.rows.map (fun r => r.set i (dateParsedCell pd r i))).filter (notNullAt i) := hr
    rw [List.mem_filter] at hr2
    obtain ⟨hmem, _⟩ := hr2
    rw [List.mem_map] at hmem
    obtain ⟨r0, hr0, rfl⟩ := hmem
    rcases mem_set_or r0 i (dateParsedCell pd r0 i) v hv with hm | hm
    · exact h r0 hr0 v hm
    · subst hm
      unfold dateParsedCell
      cases pd (r0.getD i PyVal.none) <;> rfl

theorem noCat_rowNumFoldl (pn : PyVal → Option Int) (cols : List String) (L : List String) :
    ∀ r, (∀ v ∈ r, decat v = v) → ∀ w ∈ rowNumFoldl pn cols L r, decat w = w := by
  induction L with
  | nil => intro r h w hw; exact h w hw
  | cons c L ih =>
    intro r h w hw
    have hstep : ∀ v ∈ rowUpd cols c (numCell pn) r, decat v = v := by
      intro v hv
      unfold rowUpd at hv
      cases hq : colIdx cols c with
      | none => rw [hq] at hv; exact h v hv
      | some i =>
        rw [hq] at hv
        rcases mem_set_or r i (numCell pn (r.getD i PyVal.none)) v hv with hm | hm
        · exact h v hm
        · subst hm
          unfold numCell
          cases pn (r.getD i PyVal.none) <;> rfl
    exact ih (rowUpd cols c (numCell pn) r) hstep w hw

theorem noCat_numericStep (pn : PyVal → Option Int) (t : Table) (h : NoCatTable t) :
    NoCatTable (numericStep pn t) := by
  intro r hr v hv
  unfold numericStep at hr
  rw [numericStepAux_eq_map] at hr
  have hr2 : r ∈ t.rows.map (rowNumFoldl pn t.cols numericCols) := hr
  rw [List.mem_map] at hr2
  obtain ⟨r0, hr0, rfl⟩ := hr2
  exact noCat_rowNumFoldl pn t.cols numericCols r0 (fun w hw => h r0 hr0 w hw) v hv

/-! ### Claim theorems -/

/-- C5: `apply(T, {}) = T`, and a criterion that is Python `None`, the
empty string, or an empty list/tuple is always a no-op: applying criteria
containing such an entry equals applying the same criteria without it. -/
theorem C5_noop_criteria (t : Table) (pre post : List (String × Crit)) (k : String)
    (c : Crit) (h : isEmptyCrit c = true) :
    apply_filters t [] = t ∧
    apply_filters t (pre ++ (k, c) :: post) = apply_filters t (pre ++ post) := by
  constructor
  · rfl
  · unfold apply_filters
    rw [List.foldl_append, List.foldl_append]
    show List.foldl applyStep (applyStep (List.foldl applyStep t pre) (k, c)) post = _
    rw [applyStep_empty _ k c h]

/-- Witness for C5 at a concrete table and the empty criterion `None`. -/
def wTable : Table :=
  { cols := ["CITY", "DATE"],
    rows := [[PyVal.vstr "PUNE", PyVal.vdate 3], [PyVal.vstr "MUMBAI", PyVal.vdate 9]] }

theorem C5_noop_criteria_witness :
    apply_filters wTable [] = wTable ∧
    apply_filters wTable ([] ++ ("CITY", Crit.cnone) :: []) = apply_filters wTable ([] ++ []) :=
  C5_noop_criteria wTable [] [] "CITY" Crit.cnone (by decide)

/-- C6: filtering with two criteria equals filtering sequentially with
each one, and the result is independent of the order of the two entries
(AND composition of independent row predicates). -/
theorem C6_and_composition (t : Table) (k1 k2 : String) (c1 c2 : Crit) :
    apply_filters t [(k1, c1), (k2, c2)] =
      apply_filters (apply_filters t [(k1, c1)]) [(k2, c2)] ∧
    apply_filters t [(k1, c1), (k2, c2)] = apply_filters t [(k2, c2), (k1, c1)] := by
  constructor
  · rfl
  · show applyStep (applyStep t (k1, c1)) (k2, c2) = applyStep (applyStep t (k2, c2)) (k1, c1)
    exact applyStep_comm t (k1, c1) (k2, c2)

/-- C8: filtering never adds a row — every row of the result is a row of
the input table. -/
theorem C8_nonexpansive (t : Table) (fs : List (String × Crit)) :
    ∀ r ∈ (apply_filters t fs).rows, r ∈ t.rows := by
  intro r hr
  exact (apply_filters_rows_sublist fs t).subset hr

theorem C8_nonexpansive_witness :
    [PyVal.vstr "PUNE", PyVal.vdate 3]
      ∈ (apply_filters wTable [("CITY", Crit.cstr "pun")]).rows ∧
    [PyVal.vstr "PUNE", PyVal.vdate 3] ∈ wTable.rows :=
  ⟨by decide,
   C8_nonexpansive wTable [("CITY", Crit.cstr "pun")]
     [PyVal.vstr "PUNE", PyVal.vdate 3] (by decide)⟩

/-- C10: filtering keeps the column set unchanged, and the surviving rows
form a sublist of the input rows — same relative order, each surviving
row identical (hence every column value unchanged). -/
theorem C10_frame (t : Table) (fs : List (String × Crit)) :
    (apply_filters t fs).cols = t.cols ∧ (apply_filters t fs).rows.Sublist t.rows :=
  ⟨apply_filters_cols fs t, apply_filters_rows_sublist fs t⟩

/-- Test that a cell holds a date value. -/
def isDateCell : PyVal → Bool
  | PyVal.vdate _ => true
  | _ => false

/-- The specification's inclusive `[start, end]` date-range test. -/
def inRange (s e : Int) : PyVal → Bool
  | PyVal.vdate d => decide (s ≤ d ∧ d ≤ e)
  | _ => false

/-- C7: with both bounds present, on a table whose DATE cells are dates,
the `DATE_RANGE` filter keeps exactly the rows whose date lies in
`[start, end]` inclusive; with the `DATE` column absent, or with either
bound null, it is silently skipped — the three skip conjuncts hold for
every table, with no date-typing hypothesis. -/
theorem C7_date_range (t : Table) (s e : Int) :
    ((∀ r ∈ t.rows, isDateCell (cellAt t.cols r "DATE") = true) →
      hasCol t.cols "DATE" = true →
      apply_filters t [("DATE_RANGE", Crit.cseq [PyVal.vdate s, PyVal.vdate e])] =
        { cols := t.cols, rows := t.rows.filter (fun r => inRange s e (cellAt t.cols r "DATE")) }) ∧
    (hasCol t.cols "DATE" = false →
      apply_filters t [("DATE_RANGE", Crit.cseq [PyVal.vdate s, PyVal.vdate e])] = t) ∧
    (∀ b : PyVal, apply_filters t [("DATE_RANGE", Crit.cseq [PyVal.none, b])] = t) ∧
    (∀ a : PyVal, apply_filters t [("DATE_RANGE", Crit.cseq [a, PyVal.none])] = t) := by
  refine ⟨?_, ?_, ?_, ?_⟩
  · intro hdates hd
    have hpred : predOf t.cols "DATE_RANGE" (Crit.cseq [PyVal.vdate s, PyVal.vdate e])
        = Option.some (fun r => pyDateLe (PyVal.vdate s) (cellAt t.cols r "DATE") &&
            pyDateLe (cellAt t.cols r "DATE") (PyVal.vdate e)) := by
      unfold predOf
      simp [isEmptyCrit, crit0, crit1, hd]
    show applyStep t ("DATE_RANGE", Crit.cseq [PyVal.vdate s, PyVal.vdate e]) = _
    rw [applyStep_of_some t _ _ hpred]
    congr 1
    apply List.filter_congr
    intro r hr
    have hdc := hdates r hr
    cases hc : cellAt t.cols r "DATE" with
    | vdate d => simp [pyDateLe, inRange, Bool.decide_and]
    | vstr a => rw [hc] at hdc; simp [isDateCell] at hdc
    | vnum a => rw [hc] at hdc; simp [isDateCell] at hdc
    | vcat a => rw [hc] at hdc; simp [isDateCell] at hdc
    | none => rw [hc] at hdc; simp [isDateCell] at hdc
  · intro hd
    have hpred : predOf t.cols "DATE_RANGE" (Crit.cseq [PyVal.vdate s, PyVal.vdate e])
        = Option.none := by
      unfold predOf
      simp [isEmptyCrit, hd]
    exact applyStep_of_none t _ hpred
  · intro b
    have hpred : predOf t.cols "DATE_RANGE" (Crit.cseq [PyVal.none, b])
        = Option.none := by
      unfold predOf
      simp [isEmptyCrit, crit0]
    exact applyStep_of_none t _ hpred
  · intro a
    have hpred : predOf t.cols "DATE_RANGE" (Crit.cseq [a, PyVal.none])
        = Option.none := by
      unfold predOf
      simp [isEmptyCrit, crit1]
    exact applyStep_of_none t _ hpred

/-- A table without a DATE column, exercising the skip conjuncts of C7
non-vacuously. -/
def ndTable : Table := { cols := ["CITY"], rows := [[PyVal.vstr "PUNE"]] }

theorem C7_date_range_witness :
    (((∀ r ∈ wTable.rows, isDateCell (cellAt wTable.cols r "DATE") = true) →
      hasCol wTable.cols "DATE" = true →
      apply_filters wTable [("DATE_RANGE", Crit.cseq [PyVal.vdate 3, PyVal.vdate 5])] =
        { cols := wTable.cols,
          rows := wTable.rows.filter (fun r => inRange 3 5 (cellAt wTable.cols r "DATE")) }) ∧
    (hasCol wTable.cols "DATE" = false →
      apply_filters wTable [("DATE_RANGE", Crit.cseq [PyVal.vdate 3, PyVal.vdate 5])] = wTable) ∧
    (∀ b : PyVal, apply_filters wTable [("DATE_RANGE", Crit.cseq [PyVal.none, b])] = wTable) ∧
    (∀ a : PyVal, apply_filters wTable [("DATE_RANGE", Crit.cseq [a, PyVal.none])] = wTable)) ∧
    (((∀ r ∈ ndTable.rows, isDateCell (cellAt ndTable.cols r "DATE") = true) →
      hasCol ndTable.cols "DATE" = true →
      apply_filters ndTable [("DATE_RANGE", Crit.cseq [PyVal.vdate 3, PyVal.vdate 5])] =
        { cols := ndTable.cols,
          rows := ndTable.rows.filter (fun r => inRange 3 5 (cellAt ndTable.cols r "DATE")) }) ∧
    (hasCol ndTable.cols "DATE" = false →
      apply_filters ndTable [("DATE_RANGE", Crit.cseq [PyVal.vdate 3, PyVal.vdate 5])] = ndTable) ∧
    (∀ b : PyVal, apply_filters ndTable [("DATE_RANGE", Crit.cseq [PyVal.none, b])] = ndTable) ∧
    (∀ a : PyVal, apply_filters ndTable [("DATE_RANGE", Crit.cseq [a, PyVal.none])] = ndTable)) :=
  ⟨C7_date_range wTable 3 5, C7_date_range ndTable 3 5⟩

/-- C1 counterexample table: one free-text column, one row whose value is
the single character `x`. -/
def cexTable : Table :=
  { cols := ["INDIAN IMPORTER NAME"], rows := [[PyVal.vstr "x"]] }

/-- C1 (counterexample): with the criterion `"."`, the code keeps the row
whose value is `"x"` although `"x"` does not contain `"."` as a substring
(case-insensitively) — `str.contains` treats the criterion as a regular
expression, so the claim as stated (literal substring semantics for every
criterion string, including regex-special ones) is false. -/
theorem C1_counterexample :
    (apply_filters cexTable [("INDIAN IMPORTER NAME", Crit.cstr ".")]).rows
      ≠ cexTable.rows.filter
          (fun r => isInfixCI ".".data
            (valueToStr (cellAt cexTable.cols r "INDIAN IMPORTER NAME")).data) ∧
    (apply_filters cexTable [("INDIAN IMPORTER NAME", Crit.cstr ".")]).rows
      = [[PyVal.vstr "x"]] ∧
    isInfixCI ".".data "x".data = false := by
  refine ⟨?_, ?_, ?_⟩
  · decide
  · decide
  · decide

/-- C1 (amended): for a criterion with no regex metacharacters, on a
free-text key present in the columns (and distinct from the two special
keys), the filter keeps exactly the rows whose cell, coerced to its
string representation, contains the criterion as a substring compared
case-insensitively; `isInfixCI` is exactly lower-cased substring
containment. Criteria containing metacharacters are instead interpreted
as regular expressions by the code. -/
theorem C1_substring_filter (t : Table) (k : String) (s : String)
    (hk : hasCol t.cols k = true) (hk1 : k ≠ "DATE_RANGE") (hk2 : k ≠ "AWP_MACHINES")
    (hs : s ≠ "") (hmeta : ∀ c ∈ s.data, isMeta c = false) :
    apply_filters t [(k, Crit.cstr s)] =
      { cols := t.cols,
        rows := t.rows.filter (fun r => isInfixCI s.data (valueToStr (cellAt t.cols r k)).data) } ∧
    ∀ l m : List Char, isInfixCI l m = true ↔ l.map Char.toLower <:+: m.map Char.toLower := by
  constructor
  · have hpred : predOf t.cols k (Crit.cstr s)
        = Option.some (fun r => regexSearchCI s (valueToStr (cellAt t.cols r k))) := by
      unfold predOf
      have he : isEmptyCrit (Crit.cstr s) = false := by simp [isEmptyCrit, hs]
      simp [he, hk, hk1, hk2]
    show applyStep t (k, Crit.cstr s) = _
    rw [applyStep_of_some t _ _ hpred]
    congr 1
    apply List.filter_congr
    intro r _
    exact regexSearchCI_lit s _ hmeta
  · intro l m
    exact isInfixCI_iff l m

theorem C1_substring_filter_witness :
    apply_filters wTable [("CITY", Crit.cstr "pun")] =
      { cols := wTable.cols,
        rows := wTable.rows.filter
          (fun r => isInfixCI "pun".data (valueToStr (cellAt wTable.cols r "CITY")).data) } ∧
    ∀ l m : List Char, isInfixCI l m = true ↔ l.map Char.toLower <:+: m.map Char.toLower :=
  C1_substring_filter wTable "CITY" "pun" (by decide) (by decide) (by decide) (by decide)
    (by decide)

/-- C2 counterexample raw frame. -/
def pdfTable : Table := { cols := ["A"], rows := [[PyVal.vstr "v"]] }

/-- C2 (counterexample): for the unrecognized extension `.pdf`, `load_data`
fails with the `UnboundLocalError` raised at `df.columns` (no parser
branch assigned `df`), not with a dedicated `UnsupportedFormat` error —
no such error type exists in the code. -/
theorem C2_counterexample :
    load_data (fun _ => Option.none) (fun _ => Option.none) "data.pdf" pdfTable
      = Except.error LoadError.unboundLocal ∧
    (Except.error LoadError.unboundLocal : Except LoadError Table)
      ≠ Except.error LoadError.unsupportedFormat := by
  constructor
  · rfl
  · intro h
    exact LoadError.noConfusion (Except.error.inj h)

/-- C2 (amended): for every input whose filename does not end in `.csv`,
`.txt` or `.xlsx`, `load_data` fails — with an `UnboundLocalError`, not a
dedicated `UnsupportedFormat` error — and no table is returned. -/
theorem C2_unsupported_extension (pd pn : PyVal → Option Int) (name : String) (df : Table)
    (h : (pyEndsWith name ".csv" || pyEndsWith name ".txt" || pyEndsWith name ".xlsx") = false) :
    load_data pd pn name df = Except.error LoadError.unboundLocal := by
  unfold load_data
  simp [h]

theorem C2_unsupported_extension_witness :
    load_data (fun _ => Option.none) (fun _ => Option.none) "data.pdf" pdfTable
      = Except.error LoadError.unboundLocal :=
  C2_unsupported_extension (fun _ => Option.none) (fun _ => Option.none) "data.pdf" pdfTable
    (by decide)

/-- C9 (amended): whenever loading completes, categorical compaction is
purely representational: the pipeline without the compaction step
produces exactly the decategorized loaded table, and filtering commutes
with decategorization — so equality, substring and set-membership filters
give the same results with and without compaction. Compaction is not
entirely unobservable, though: see the counterexample, where the
compaction loop itself raises ZeroDivisionError on an input the
uncompacted pipeline handles. -/
theorem C9_compaction_observational (pd pn : PyVal → Option Int) (name : String)
    (df : Table) (fs : List (String × Crit)) (t : Table) (hnc : NoCatTable df)
    (ht : load_data pd pn name df = Except.ok t) :
    loadNoCompact pd pn name df = Except.ok (decatTable t) ∧
    apply_filters (decatTable t) fs = decatTable (apply_filters t fs) := by
  refine ⟨?_, apply_filters_decat fs t⟩
  unfold load_data at ht
  unfold loadNoCompact
  by_cases hext : (pyEndsWith name ".csv" || pyEndsWith name ".txt" ||
      pyEndsWith name ".xlsx") = true
  · rw [if_pos hext] at ht
    rw [if_pos hext]
    obtain ⟨_, _, hdec, _⟩ :=
      catStepE_ok (renameStep (stripCols df)) stringColsToCategorize
        (numericStep pn (dateStep pd (renameStep (stripCols df)))) t ht
    have hX : NoCatTable (numericStep pn (dateStep pd (renameStep (stripCols df)))) :=
      noCat_numericStep pn _ (noCat_dateStep pd _ (fun r hr v hv => hnc r hr v hv))
    rw [Except.ok.injEq, hdec]
    exact (decatTable_eq_of_noCat _ hX).symm
  · rw [if_neg hext] at ht
    exact Except.noConfusion ht

/-- A raw frame whose single date value is unparseable and whose CITY
column (listed for compaction) holds a string, hence has object dtype. -/
def crashTable : Table :=
  { cols := ["CITY", "DATE"], rows := [[PyVal.vstr "PUNE", PyVal.vstr "junk"]] }

/-- C9 (counterexample): compaction is observable. Date coercion empties
this frame (its only date fails to parse); the compaction loop then
evaluates nunique()/len() = 0/0 on the object-dtype CITY column and
load_data raises ZeroDivisionError, while the same pipeline without the
compaction step succeeds with the empty table. -/
theorem C9_counterexample :
    load_data (fun _ => Option.none) (fun _ => Option.none) "a.csv" crashTable
      = Except.error LoadError.zeroDivision ∧
    loadNoCompact (fun _ => Option.none) (fun _ => Option.none) "a.csv" crashTable
      = Except.ok (Table.mk ["CITY", "DATE"] []) :=
  ⟨rfl, rfl⟩

/-- A date parser accepting exactly the already-date cells. -/
def pdDate : PyVal → Option Int := fun v =>
  match v with
  | PyVal.vdate d => Option.some d
  | _ => Option.none

/-- A five-row frame whose CITY column has low cardinality (2 of 5), so
the compaction loop genuinely converts it to the category dtype. -/
def wTable5 : Table :=
  { cols := ["CITY", "DATE"],
    rows := [[PyVal.vstr "PUNE", PyVal.vdate 1], [PyVal.vstr "PUNE", PyVal.vdate 2],
             [PyVal.vstr "PUNE", PyVal.vdate 3], [PyVal.vstr "MUMBAI", PyVal.vdate 4],
             [PyVal.vstr "MUMBAI", PyVal.vdate 5]] }

/-- The table `load_data` produces from `wTable5`: CITY compacted. -/
def wTable5cat : Table :=
  { cols := ["CITY", "DATE"],
    rows := [[PyVal.vcat "PUNE", PyVal.vdate 1], [PyVal.vcat "PUNE", PyVal.vdate 2],
             [PyVal.vcat "PUNE", PyVal.vdate 3], [PyVal.vcat "MUMBAI", PyVal.vdate 4],
             [PyVal.vcat "MUMBAI", PyVal.vdate 5]] }

theorem C9_compaction_observational_witness :
    loadNoCompact pdDate (fun _ => Option.none) "a.csv" wTable5
      = Except.ok (decatTable wTable5cat) ∧
    apply_filters (decatTable wTable5cat) [("CITY", Crit.cstr "pun")]
      = decatTable (apply_filters wTable5cat [("CITY", Crit.cstr "pun")]) :=
  C9_compaction_observational pdDate (fun _ => Option.none) "a.csv" wTable5
    [("CITY", Crit.cstr "pun")] wTable5cat
    (by unfold NoCatTable; decide) (by rfl)

/-- C3 (amended): whenever loading completes on a parsed table with a
canonical DATE column, every date value is parsed with the external
day-first parser, exactly the rows whose date fails to parse are dropped
entirely — survivors plus failures equal the raw row count — and every
DATE cell of the loaded table is a parsed, non-null date. Loading itself
can fail instead of returning the N−M-row table: when every date is
unparseable and a recognized object-dtype string column is present, the
compaction loop raises ZeroDivisionError (see the counterexample). -/
theorem C3_date_coercion (pd pn : PyVal → Option Int) (name : String) (df : Table)
    (i : Nat) (T : Table)
    (hwf : ∀ r ∈ df.rows, r.length = df.cols.length)
    (hi : colIdx (stripCols df).cols "DATE" = Option.some i)
    (hok : load_data pd pn name df = Except.ok T) :
    T.rows.length + df.rows.countP (fun r => (pd (r.getD i PyVal.none)).isNone)
      = df.rows.length ∧
    ∀ r ∈ T.rows, ∃ d : Int, cellAt T.cols r "DATE" = PyVal.vdate d := by
  unfold load_data at hok
  by_cases hext : (pyEndsWith name ".csv" || pyEndsWith name ".txt" ||
      pyEndsWith name ".xlsx") = true
  · rw [if_pos hext, renameStep_id] at hok
    have hwf0 : ∀ r ∈ (stripCols df).rows, r.length = (stripCols df).cols.length := by
      intro r hr
      show r.length = (df.cols.map _).length
      rw [List.length_map]
      exact hwf r hr
    have hc2 : (numericStep pn (dateStep pd (stripCols df))).cols = (stripCols df).cols := by
      calc (numericStep pn (dateStep pd (stripCols df))).cols
          = (numericStepAux pn numericCols (dateStep pd (stripCols df))).cols := rfl
        _ = (dateStep pd (stripCols df)).cols := numericStepAux_cols _ _ _
        _ = (stripCols df).cols := dateStep_cols _ _
    have hgetD : (stripCols df).cols.getD i "" = "DATE" := colIdx_getD _ "DATE" "" i hi
    obtain ⟨hcols, hlen, _, hpre⟩ :=
      catStepE_ok (stripCols df) stringColsToCategorize
        (numericStep pn (dateStep pd (stripCols df))) T hok
    constructor
    · have hlen2 : (numericStep pn (dateStep pd (stripCols df))).rows.length
          = (dateStep pd (stripCols df)).rows.length :=
        numericStepAux_length pn numericCols _
      rw [hlen, hlen2]
      exact dateStep_length pd (stripCols df) i hi hwf0
    · intro r hr
      have hno : ∀ c' ∈ stringColsToCategorize,
          colIdx (numericStep pn (dateStep pd (stripCols df))).cols c' ≠ Option.some i := by
        intro c' hc' hq
        rw [hc2] at hq
        have h3 := colIdx_getD _ c' "" i hq
        rw [hgetD] at h3
        subst h3
        exact absurd hc' (by decide)
      obtain ⟨r2, hr2, he2, _⟩ := hpre i hno r hr
      have hr2a : r2 ∈ (numericStepAux pn numericCols (dateStep pd (stripCols df))).rows := hr2
      rw [numericStepAux_eq_map] at hr2a
      have hr2b : r2 ∈ (dateStep pd (stripCols df)).rows.map
          (rowNumFoldl pn (dateStep pd (stripCols df)).cols numericCols) := hr2a
      rw [List.mem_map] at hr2b
      obtain ⟨r3, hr3, rfl⟩ := hr2b
      have hnodate : ∀ c' ∈ numericCols,
          colIdx (dateStep pd (stripCols df)).cols c' ≠ Option.some i := by
        intro c' hc' hq
        rw [dateStep_cols] at hq
        have h3 := colIdx_getD _ c' "" i hq
        rw [hgetD] at h3
        subst h3
        exact absurd hc' (by decide)
      have he3 : (rowNumFoldl pn (dateStep pd (stripCols df)).cols numericCols r3).getD
          i PyVal.none = r3.getD i PyVal.none :=
        rowNumFoldl_getD_notmem pn _ numericCols r3 i PyVal.none hnodate
      obtain ⟨d, hd⟩ := dateStep_cell pd (stripCols df) i hi hwf0 r3 hr3
      refine ⟨d, ?_⟩
      have hiT : colIdx T.cols "DATE" = Option.some i := by
        rw [hcols, hc2]
        exact hi
      simp only [cellAt, hiT]
      rw [he2, he3, hd]
  · rw [if_neg hext] at hok
    exact Except.noConfusion hok

/-- C3 (counterexample): a csv input whose parsed table has a canonical
DATE column and whose every date value fails to parse (N = M = 1). The
claim predicts a loaded table with N − M = 0 rows; instead load_data
fails with ZeroDivisionError — raised at the nunique()/len() division of
the compaction loop on the emptied frame — and no table is loaded. -/
theorem C3_counterexample :
    colIdx (stripCols crashTable).cols "DATE" = Option.some 1 ∧
    crashTable.rows.countP
      (fun r => ((fun _ : PyVal => (Option.none : Option Int)) (r.getD 1 PyVal.none)).isNone)
      = crashTable.rows.length ∧
    load_data (fun _ => Option.none) (fun _ => Option.none) "a.csv" crashTable
      = Except.error LoadError.zeroDivision ∧
    ¬∃ T : Table, load_data (fun _ => Option.none) (fun _ => Option.none) "a.csv" crashTable
      = Except.ok T := by
  refine ⟨by decide, by decide, rfl, ?_⟩
  rintro ⟨T, hT⟩
  rw [show load_data (fun _ => (Option.none : Option Int))
      (fun _ => (Option.none : Option Int)) "a.csv" crashTable
      = Except.error LoadError.zeroDivision from rfl] at hT
  exact Except.noConfusion hT

def pdW : PyVal → Option Int := fun v =>
  match v with
  | PyVal.vstr "05/01/2021" => Option.some 100
  | _ => Option.none

def pnW : PyVal → Option Int := fun v =>
  match v with
  | PyVal.vstr "7" => Option.some 7
  | _ => Option.none

def dfW : Table :=
  { cols := [" DATE ", "QUANTITY"],
    rows := [[PyVal.vstr "05/01/2021", PyVal.vstr "7"], [PyVal.vstr "junk", PyVal.vstr "x"]] }

theorem C3_date_coercion_witness :
    (Table.mk ["DATE", "QUANTITY"] [[PyVal.vdate 100, PyVal.vnum 7]]).rows.length
      + dfW.rows.countP (fun r => (pdW (r.getD 0 PyVal.none)).isNone) = dfW.rows.length ∧
    ∀ r ∈ (Table.mk ["DATE", "QUANTITY"] [[PyVal.vdate 100, PyVal.vnum 7]]).rows,
      ∃ d : Int, cellAt (Table.mk ["DATE", "QUANTITY"]
        [[PyVal.vdate 100, PyVal.vnum 7]]).cols r "DATE" = PyVal.vdate d :=
  C3_date_coercion pdW pnW "a.csv" dfW 0
    (Table.mk ["DATE", "QUANTITY"] [[PyVal.vdate 100, PyVal.vnum 7]])
    (by decide) (by decide) (by rfl)

/-- C4: numeric coercion never drops a row (the numeric step preserves
the row count of any table), a coerced cell is always the parsed number
with unparseable values resolving to exactly 0 (never null), and whenever
loading completes, every cell of a recognized numeric column present in
the loaded table is such a coerced, non-null number. -/
theorem C4_numeric_coercion (pd pn : PyVal → Option Int) (name : String) (df : Table)
    (T : Table)
    (hwf : ∀ r ∈ df.rows, r.length = df.cols.length)
    (hok : load_data pd pn name df = Except.ok T) :
    (∀ u : Table, (numericStep pn u).rows.length = u.rows.length) ∧
    (∀ v : PyVal, numCell pn v = PyVal.vnum ((pn v).getD 0)) ∧
    (∀ c ∈ numericCols, ∀ i : Nat, colIdx T.cols c = Option.some i →
      ∀ r ∈ T.rows, ∃ r0 ∈ (dateStep pd (stripCols df)).rows,
        r.getD i PyVal.none = numCell pn (r0.getD i PyVal.none)) := by
  refine ⟨fun u => numericStepAux_length pn numericCols u,
          fun v => by unfold numCell; cases pn v <;> rfl, ?_⟩
  unfold load_data at hok
  by_cases hext : (pyEndsWith name ".csv" || pyEndsWith name ".txt" ||
      pyEndsWith name ".xlsx") = true
  · rw [if_pos hext, renameStep_id] at hok
    have hwf0 : ∀ r ∈ (stripCols df).rows, r.length = (stripCols df).cols.length := by
      intro r hr
      show r.length = (df.cols.map _).length
      rw [List.length_map]
      exact hwf r hr
    have hc2 : (numericStep pn (dateStep pd (stripCols df))).cols = (stripCols df).cols := by
      calc (numericStep pn (dateStep pd (stripCols df))).cols
          = (numericStepAux pn numericCols (dateStep pd (stripCols df))).cols := rfl
        _ = (dateStep pd (stripCols df)).cols := numericStepAux_cols _ _ _
        _ = (stripCols df).cols := dateStep_cols _ _
    obtain ⟨hcols, _, _, hpre⟩ :=
      catStepE_ok (stripCols df) stringColsToCategorize
        (numericStep pn (dateStep pd (stripCols df))) T hok
    intro c hc i hci r hr
    have hciS : colIdx (stripCols df).cols c = Option.some i := by
      rw [← hc2, ← hcols]
      exact hci
    have hgetD : (stripCols df).cols.getD i "" = c := colIdx_getD _ c "" i hciS
    have hno : ∀ c' ∈ stringColsToCategorize,
        colIdx (numericStep pn (dateStep pd (stripCols df))).cols c' ≠ Option.some i := by
      intro c' hc' hq
      rw [hc2] at hq
      have h3 := colIdx_getD _ c' "" i hq
      rw [hgetD] at h3
      subst h3
      have hdisj : ∀ x ∈ numericCols, x ∉ stringColsToCategorize := by decide
      exact hdisj c hc hc'
    obtain ⟨r2, hr2, he2, _⟩ := hpre i hno r hr
    have hr2a : r2 ∈ (numericStepAux pn numericCols (dateStep pd (stripCols df))).rows := hr2
    rw [numericStepAux_eq_map] at hr2a
    have hr2b : r2 ∈ (dateStep pd (stripCols df)).rows.map
        (rowNumFoldl pn (dateStep pd (stripCols df)).cols numericCols) := hr2a
    rw [List.mem_map] at hr2b
    obtain ⟨r0, hr0, rfl⟩ := hr2b
    have hwf1 := dateStep_wf pd (stripCols df) hwf0
    have hilt : i < r0.length := by
      rw [hwf1 r0 hr0, dateStep_cols]
      exact colIdx_lt _ c i hciS
    have hci1 : colIdx (dateStep pd (stripCols df)).cols c = Option.some i := by
      rw [dateStep_cols]
      exact hciS
    have hmem := rowNumFoldl_getD_mem pn (dateStep pd (stripCols df)).cols numericCols
      r0 i c (by decide) hc hci1 hilt
    refine ⟨r0, hr0, ?_⟩
    rw [he2, hmem]
  · rw [if_neg hext] at hok
    exact Except.noConfusion hok

theorem C4_numeric_coercion_witness :
    (∀ u : Table, (numericStep pnW u).rows.length = u.rows.length) ∧
    (∀ v : PyVal, numCell pnW v = PyVal.vnum ((pnW v).getD 0)) ∧
    (∀ c ∈ numericCols, ∀ i : Nat,
      colIdx (Table.mk ["DATE", "QUANTITY"] [[PyVal.vdate 100, PyVal.vnum 7]]).cols c
        = Option.some i →
      ∀ r ∈ (Table.mk ["DATE", "QUANTITY"] [[PyVal.vdate 100, PyVal.vnum 7]]).rows,
        ∃ r0 ∈ (dateStep pdW (stripCols dfW)).rows,
          r.getD i PyVal.none = numCell pnW (r0.getD i PyVal.none)) :=
  C4_numeric_coercion pdW pnW "a.csv" dfW
    (Table.mk ["DATE", "QUANTITY"] [[PyVal.vdate 100, PyVal.vnum 7]])
    (by decide) (by rfl)
